import Mathlib

/-!
Verification of the hierarchical Markdown chunker (`chunkerer.py`).

Python strings are modelled as `List Char`; Python `str.split(sep)`,
`sep.join(list)` and `str.strip()` are modelled by `pySplit`, `pyJoin`
and `pyStrip` below.  Line numbers are modelled as `Int`, matching
Python integer arithmetic.
-/

namespace Chunkerer

/-- The ASCII whitespace characters recognised by Python's `str.strip()`
and by the regex class used in the header pattern. -/
def isPySpace (c : Char) : Bool :=
  c == ' ' || c == '\t' || c == '\n' || c == '\r' || c == '\x0b' || c == '\x0c'

/-- Python `str.strip()`: remove leading and trailing whitespace. -/
def pyStrip (s : List Char) : List Char :=
  ((s.dropWhile isPySpace).reverse.dropWhile isPySpace).reverse

/-- Worker for `pySplit`.  `skip` counts separator characters still to be
consumed after a separator occurrence was recognised; pieces are produced
by consing onto the head of the recursive result. -/
def splitGo (sep : List Char) : List Char → Nat → List (List Char)
  | [], _ => [[]]
  | _ :: rest, skip + 1 => splitGo sep rest skip
  | c :: rest, 0 =>
    if sep.isPrefixOf (c :: rest) then
      [] :: splitGo sep rest (sep.length - 1)
    else
      match splitGo sep rest 0 with
      | p :: ps => (c :: p) :: ps
      | [] => [[c]]

/-- Python `s.split(sep)` for a non-empty separator `sep`: leftmost,
non-overlapping occurrences; always returns at least one piece. -/
def pySplit (sep s : List Char) : List (List Char) :=
  splitGo sep s 0

/-- Python `sep.join(l)`. -/
def pyJoin (sep : List Char) : List (List Char) → List Char
  | [] => []
  | [x] => x
  | x :: y :: xs => x ++ sep ++ pyJoin sep (y :: xs)

/-- The separator `"\n"` used by `chunk_by_headers` to split the document
into lines. -/
def nlSep : List Char := ['\n']

/-- The separator `"\n\n"` used by `_subdivide_large_chunks` to split a
chunk into paragraphs. -/
def nnSep : List Char := ['\n', '\n']

/-- The separator `" > "` used by `to_dict` to join the header path. -/
def gtSep : List Char := [' ', '>', ' ']

/-- One entry of the header stack: the Python dict
`{"level": level, "title": title}`. -/
structure HeaderFrame where
  level : Nat
  title : List Char
deriving DecidableEq

/-- The dataclass `MarkdownChunk`. -/
structure MarkdownChunk where
  content : List Char
  header_path : List (List Char)
  level : Nat
  start_line : Int
  end_line : Int
deriving DecidableEq

/-- The dictionary produced by `MarkdownChunk.to_dict` (the nested
`metadata` dict is flattened into its two entries). -/
structure ChunkDict where
  content : List Char
  header_path : List Char
  level : Nat
  start_line : Int
  end_line : Int
  hierarchy : List (List Char)
  section_level : Nat
deriving DecidableEq

/-- Embeds `MarkdownChunk.to_dict`. -/
def to_dict (c : MarkdownChunk) : ChunkDict :=
  { content := c.content
    header_path := pyJoin gtSep c.header_path
    level := c.level
    start_line := c.start_line
    end_line := c.end_line
    hierarchy := c.header_path
    section_level := c.level }

/-- The sentinel `"Document Root"`. -/
def docRoot : List Char := "Document Root".toList

/-- Embeds `MarkdownChunker._create_chunk`.  The `threshold_title` argument is
passed by the caller but unused, as in the source. -/
def create_chunk (content_lines : List (List Char)) (header_stack : List HeaderFrame)
    (level : Nat) (start fin : Int) (_threshold_title : Nat) : MarkdownChunk :=
  { content := pyStrip (pyJoin nlSep content_lines)
    header_path :=
      if header_stack.map HeaderFrame.title = [] then [docRoot]
      else header_stack.map HeaderFrame.title
    level := level
    start_line := start
    end_line := fin }

/-- The compiled regex `^(#{1,6})\s+(.+)$` applied with `re.match` to one
line (lines produced by splitting on `"\n"` contain no newline, so the
`MULTILINE` flag and the newline-exclusion of `.` are inert).  Returns
`(len(group(1)), group(2))` on a match: a run of 1-6 `#`, then at least
one whitespace character, then at least one further character; `\s+` is
greedy, giving back a single trailing whitespace character to `.+` when
nothing else remains. -/
def headerMatch (line : List Char) : Option (Nat × List Char) :=
  let h := (line.takeWhile (fun c => c == '#')).length
  let rest := line.drop h
  if 1 ≤ h ∧ h ≤ 6 then
    match rest with
    | [] => none
    | c :: cs =>
      if isPySpace c ∧ cs ≠ [] then
        let t := rest.dropWhile isPySpace
        some (h, if t = [] then rest.drop (rest.length - 1) else t)
      else none
  else none

/-- The `while header_stack and header_stack[-1]["level"] >= level:
header_stack.pop()` loop: remove the maximal trailing run of frames whose
level is `≥ level`. -/
def popGE (stack : List HeaderFrame) (level : Nat) : List HeaderFrame :=
  (stack.reverse.dropWhile (fun f => level ≤ f.level)).reverse

/-- The mutable locals of the `chunk_by_headers` scan loop. -/
structure ScanState where
  chunks : List MarkdownChunk
  header_stack : List HeaderFrame
  current_content : List (List Char)
  current_start : Int
  current_level : Nat
deriving DecidableEq

/-- The local constant `threshold_title = 150` of `chunk_by_headers`. -/
def threshold_title : Nat := 150

/-- One iteration of the `for i, line in enumerate(lines)` body of
`chunk_by_headers`. -/
def scanLine (i : Nat) (line : List Char) (st : ScanState) : ScanState :=
  match headerMatch line with
  | some (level, g2) =>
    let st1 :=
      if st.current_content ≠ [] then
        { st with
          chunks := st.chunks ++
            [create_chunk st.current_content st.header_stack st.current_level
              st.current_start ((i : Int) - 1) threshold_title]
          current_content := [] }
      else st
    { st1 with
      header_stack := popGE st1.header_stack level ++ [⟨level, pyStrip g2⟩]
      current_level := level
      current_start := (i : Int)
      current_content := [line] }
  | none => { st with current_content := st.current_content ++ [line] }

/-- The whole scan loop, with `i` the index of the first line of `lines`
in the document. -/
def scanLines : Nat → List (List Char) → ScanState → ScanState
  | _, [], st => st
  | i, l :: ls, st => scanLines (i + 1) ls (scanLine i l st)

/-- The initial values of the scan locals. -/
def initState : ScanState :=
  { chunks := [], header_stack := [], current_content := []
    current_start := 0, current_level := 0 }

/-- Embeds `chunk_by_headers` up to (and excluding) the subdivision pass: the
scan loop followed by the final `if current_content:` flush. -/
def chunk_by_headers_raw (md : List Char) : List MarkdownChunk :=
  let lines := pySplit nlSep md
  let st := scanLines 0 lines initState
  if st.current_content ≠ [] then
    st.chunks ++
      [create_chunk st.current_content st.header_stack st.current_level
        st.current_start ((lines.length : Int) - 1) threshold_title]
  else st.chunks

/-- The inner `for para in paragraphs` loop of `_subdivide_large_chunks`,
returning the emitted sub-chunks together with the final values of
`sub_content` and `sub_start`.  Note that in the close branch the source
reassigns `sub_content = [para]` before executing
`sub_start += len(sub_content)`, so the counter advances by 1. -/
def subLoop (N : Nat) (parent : MarkdownChunk) :
    List (List Char) → List (List Char) → Int →
    List MarkdownChunk × List (List Char) × Int
  | [], sub_content, sub_start => ([], sub_content, sub_start)
  | para :: rest, sub_content, sub_start =>
    if ((sub_content.map List.length).sum + para.length > N) ∧ sub_content ≠ [] then
      let sc : MarkdownChunk :=
        { content := pyJoin nnSep sub_content
          header_path := parent.header_path
          level := parent.level
          start_line := sub_start
          end_line := sub_start + (sub_content.length : Int) - 1 }
      let sub_content2 := [para]
      let r := subLoop N parent rest sub_content2 (sub_start + (sub_content2.length : Int))
      (sc :: r.1, r.2)
    else
      subLoop N parent rest (sub_content ++ [para]) sub_start

/-- The `else` branch of `_subdivide_large_chunks` for one oversized
chunk: split into paragraphs, run the packing loop, then flush the last
accumulator if non-empty. -/
def subdivide_chunk (N : Nat) (chunk : MarkdownChunk) : List MarkdownChunk :=
  let paragraphs := pySplit nnSep chunk.content
  let r := subLoop N chunk paragraphs [] chunk.start_line
  if r.2.1 ≠ [] then
    r.1 ++
      [{ content := pyJoin nnSep r.2.1
         header_path := chunk.header_path
         level := chunk.level
         start_line := r.2.2
         end_line := chunk.end_line }]
  else r.1

/-- Embeds `MarkdownChunker._subdivide_large_chunks`. -/
def subdivide_large_chunks (N : Nat) (chunks : List MarkdownChunk) :
    List MarkdownChunk :=
  (chunks.map (fun c =>
    if c.content.length ≤ N then [c] else subdivide_chunk N c)).flatten

/-- Python truthiness of the `max_chunk_size` field (an `Optional[int]`):
`None` and `0` are falsy. -/
def optTruthy : Option Nat → Bool
  | none => false
  | some n => n != 0

/-- Embeds `MarkdownChunker.chunk_by_headers`, parameterised by the
`max_chunk_size` passed to the constructor. -/
def chunk_by_headers (max_chunk_size : Option Nat) (md : List Char) :
    List MarkdownChunk :=
  let chunks := chunk_by_headers_raw md
  if optTruthy max_chunk_size then
    subdivide_large_chunks (max_chunk_size.getD 0) chunks
  else chunks

/-- Placeholder chunk used as the default of `List.headD` /
`List.getLastD` in statements. -/
def dummyChunk : MarkdownChunk :=
  { content := [], header_path := [], level := 0, start_line := 0, end_line := 0 }

/-- Total length of a list of strings, as summed by the generator
expression `sum(len(p) for p in sub_content)`. -/
def sumLen (xs : List (List Char)) : Nat := (xs.map List.length).sum

/-- Property: `x` contains no occurrence of the separator `sep` starting strictly
inside `x`, even one that spills over into an immediately following
separator. -/
def noMidOcc (sep x : List Char) : Prop :=
  ∀ i < x.length, sep.isPrefixOf ((x ++ sep).drop i) = false

/-- Property: `x` contains no occurrence of the separator `sep`. -/
def sepFree (sep x : List Char) : Prop :=
  ∀ i < x.length, sep.isPrefixOf (x.drop i) = false

instance (sep x : List Char) : Decidable (noMidOcc sep x) :=
  inferInstanceAs
    (Decidable (∀ i < x.length, sep.isPrefixOf ((x ++ sep).drop i) = false))

instance (sep x : List Char) : Decidable (sepFree sep x) :=
  inferInstanceAs
    (Decidable (∀ i < x.length, sep.isPrefixOf (x.drop i) = false))

/-- The chunk list `cs` covers the inclusive line range `[lo, hi]`
contiguously and in order. -/
def Covers : List MarkdownChunk → Int → Int → Prop
  | [], lo, hi => hi = lo - 1
  | c :: cs, lo, hi => c.start_line = lo ∧ Covers cs (c.end_line + 1) hi

/-- Invariant of the `chunk_by_headers` scan loop after `i` lines: either
nothing has been consumed yet, or the emitted chunks cover exactly the
lines before `current_start`. -/
def ScanInv (i : Nat) (st : ScanState) : Prop :=
  (st.current_content = [] → st.chunks = [] ∧ st.current_start = 0 ∧ i = 0) ∧
  (st.current_content ≠ [] → Covers st.chunks 0 (st.current_start - 1))

/-- Instrumented scan state: identical to `ScanState`, but each emitted
chunk is paired with the header-stack snapshot (`header_stack.copy()`)
that `_create_chunk` received for it.  The snapshot is ghost data: it
changes nothing about the computation and is erased by `projStateG`. -/
structure ScanStateG where
  chunks : List (MarkdownChunk × List HeaderFrame)
  header_stack : List HeaderFrame
  current_content : List (List Char)
  current_start : Int
  current_level : Nat

/-- Instrumented variant of `scanLine`: the same computation, also
recording the stack snapshot of each emitted chunk. -/
def scanLineG (i : Nat) (line : List Char) (st : ScanStateG) : ScanStateG :=
  match headerMatch line with
  | some (level, g2) =>
    let st1 :=
      if st.current_content ≠ [] then
        { st with
          chunks := st.chunks ++
            [(create_chunk st.current_content st.header_stack st.current_level
                st.current_start ((i : Int) - 1) threshold_title,
              st.header_stack)]
          current_content := [] }
      else st
    { st1 with
      header_stack := popGE st1.header_stack level ++ [⟨level, pyStrip g2⟩]
      current_level := level
      current_start := (i : Int)
      current_content := [line] }
  | none => { st with current_content := st.current_content ++ [line] }

/-- Instrumented variant of `scanLines`. -/
def scanLinesG : Nat → List (List Char) → ScanStateG → ScanStateG
  | _, [], st => st
  | i, l :: ls, st => scanLinesG (i + 1) ls (scanLineG i l st)

/-- Initial instrumented scan state. -/
def initStateG : ScanStateG :=
  { chunks := [], header_stack := [], current_content := []
    current_start := 0, current_level := 0 }

/-- The instrumented run of `chunk_by_headers` up to the subdivision
pass: each chunk paired with the stack snapshot it was created from. -/
def scanG_final (md : List Char) : List (MarkdownChunk × List HeaderFrame) :=
  let lines := pySplit nlSep md
  let st := scanLinesG 0 lines initStateG
  if st.current_content ≠ [] then
    st.chunks ++
      [(create_chunk st.current_content st.header_stack st.current_level
          st.current_start ((lines.length : Int) - 1) threshold_title,
        st.header_stack)]
  else st.chunks

/-- The per-chunk header-stack snapshots of the scan, in chunk order:
the (level, title) frames `_create_chunk` received for each chunk. -/
def chunk_snapshots (md : List Char) : List (List HeaderFrame) :=
  (scanG_final md).map Prod.snd

/-- Erase the ghost snapshots, recovering the uninstrumented state. -/
def projStateG (st : ScanStateG) : ScanState :=
  { chunks := st.chunks.map Prod.fst
    header_stack := st.header_stack
    current_content := st.current_content
    current_start := st.current_start
    current_level := st.current_level }

/-- A chunk/snapshot pair is well-formed: the snapshot's levels strictly
increase from outermost to innermost, and the chunk's `header_path` is
exactly the snapshot's title projection (with the `Document Root`
sentinel for the empty snapshot). -/
def SnapOK (p : MarkdownChunk × List HeaderFrame) : Prop :=
  List.Chain' (fun a b => a.level < b.level) p.2 ∧
  p.1.header_path = if p.2 = [] then [docRoot] else p.2.map HeaderFrame.title

/-- Invariant of the instrumented scan: the live stack is a strictly
increasing chain and every emitted chunk/snapshot pair is well-formed. -/
def StackInvG (st : ScanStateG) : Prop :=
  List.Chain' (fun a b => a.level < b.level) st.header_stack ∧
  ∀ p ∈ st.chunks, SnapOK p

/-- A run of the subdivision loop from an intermediate state, with the
trailing flush of the last accumulator appended (the tail of
`subdivide_chunk`). -/
def subRun (N : Nat) (parent : MarkdownChunk) (paras sub : List (List Char))
    (ss : Int) : List MarkdownChunk :=
  let r := subLoop N parent paras sub ss
  r.1 ++
    (if r.2.1 ≠ [] then
      [{ content := pyJoin nnSep r.2.1
         header_path := parent.header_path
         level := parent.level
         start_line := r.2.2
         end_line := parent.end_line }]
    else [])

/-! ### Basic facts about `isPrefixOf`, `pySplit` and `pyJoin` -/

theorem isPrefixOf_iff (a : List Char) : ∀ s : List Char,
    a.isPrefixOf s = true ↔ ∃ t, s = a ++ t := by
  induction a with
  | nil =>
    intro s
    simp [List.isPrefixOf]
  | cons x xs ih =>
    intro s
    cases s with
    | nil => simp [List.isPrefixOf]
    | cons y ys =>
      simp only [List.isPrefixOf, Bool.and_eq_true, beq_iff_eq, ih ys,
        List.cons_append, List.cons.injEq]
      constructor
      · rintro ⟨hxy, t, rfl⟩
        exact ⟨t, hxy.symm, rfl⟩
      · rintro ⟨t, hxy, rfl⟩
        exact ⟨hxy.symm, t, rfl⟩

theorem isPrefixOf_self_append (a t : List Char) :
    a.isPrefixOf (a ++ t) = true :=
  (isPrefixOf_iff a (a ++ t)).2 ⟨t, rfl⟩

theorem isPrefixOf_of_append (a b c : List Char) (hl : a.length ≤ b.length)
    (h : a.isPrefixOf (b ++ c) = true) : a.isPrefixOf b = true := by
  obtain ⟨t, ht⟩ := (isPrefixOf_iff a (b ++ c)).1 h
  refine (isPrefixOf_iff a b).2 ⟨b.drop a.length, ?_⟩
  have htake : (b ++ c).take a.length = b.take a.length := by
    rw [List.take_append_eq_append_take, Nat.sub_eq_zero_of_le hl,
      List.take_zero, List.append_nil]
  have h1 : (b ++ c).take a.length = a := by
    rw [ht, List.take_append_eq_append_take, Nat.sub_self, List.take_zero,
      List.append_nil, List.take_length]
  have h2 : b.take a.length = a := by rw [← htake]; exact h1
  calc b = b.take a.length ++ b.drop a.length := (List.take_append_drop _ _).symm
    _ = a ++ b.drop a.length := by rw [h2]

theorem splitGo_skip (sep : List Char) : ∀ (s : List Char) (k : Nat),
    splitGo sep s k = splitGo sep (s.drop k) 0 := by
  intro s
  induction s with
  | nil => intro k; cases k <;> rfl
  | cons c rest ih =>
    intro k
    cases k with
    | zero => rfl
    | succ k => simpa [splitGo] using ih k

theorem pySplit_nil (sep : List Char) : pySplit sep [] = [[]] := rfl

theorem pySplit_cons_pos (sep : List Char) (c : Char) (rest : List Char)
    (hsep : sep ≠ []) (h : sep.isPrefixOf (c :: rest) = true) :
    pySplit sep (c :: rest) = [] :: pySplit sep ((c :: rest).drop sep.length) := by
  obtain ⟨m, hm⟩ : ∃ m, sep.length = m + 1 := by
    cases hs : sep with
    | nil => exact absurd hs hsep
    | cons a as => exact ⟨as.length, by simp [hs]⟩
  show splitGo sep (c :: rest) 0 = [] :: splitGo sep ((c :: rest).drop sep.length) 0
  rw [splitGo, if_pos h, splitGo_skip, hm]
  rfl

theorem pySplit_cons_neg (sep : List Char) (c : Char) (rest p : List Char)
    (ps : List (List Char)) (h : sep.isPrefixOf (c :: rest) = false)
    (hps : pySplit sep rest = p :: ps) :
    pySplit sep (c :: rest) = (c :: p) :: ps := by
  show splitGo sep (c :: rest) 0 = (c :: p) :: ps
  rw [splitGo, if_neg (by simp [h])]
  rw [show splitGo sep rest 0 = p :: ps from hps]

theorem pySplit_ne_nil (sep : List Char) : ∀ s : List Char,
    pySplit sep s ≠ [] := by
  have go : ∀ (s : List Char) (k : Nat), splitGo sep s k ≠ [] := by
    intro s
    induction s with
    | nil => intro k; cases k <;> simp [splitGo]
    | cons c rest ih =>
      intro k
      cases k with
      | succ k => simpa [splitGo] using ih k
      | zero =>
        rw [splitGo]
        split
        · simp
        · rcases hr : splitGo sep rest 0 with _ | ⟨p, ps⟩ <;> simp [hr]
  intro s
  exact go s 0

theorem pyJoin_cons (sep x : List Char) (xs : List (List Char))
    (hxs : xs ≠ []) : pyJoin sep (x :: xs) = x ++ sep ++ pyJoin sep xs := by
  cases xs with
  | nil => exact absurd rfl hxs
  | cons y ys => rfl

theorem pyJoin_pySplit (sep : List Char) (hsep : sep ≠ []) :
    ∀ (n : Nat) (s : List Char), s.length ≤ n →
      pyJoin sep (pySplit sep s) = s := by
  have hlen : 1 ≤ sep.length := by
    cases hs : sep with
    | nil => exact absurd hs hsep
    | cons a as => simp [hs]
  intro n
  induction n with
  | zero =>
    intro s hs
    have : s = [] := List.eq_nil_of_length_eq_zero (Nat.le_zero.1 hs)
    subst this; rfl
  | succ n ih =>
    intro s hs
    cases s with
    | nil => rfl
    | cons c rest =>
      by_cases hp : sep.isPrefixOf (c :: rest) = true
      · obtain ⟨t, ht⟩ := (isPrefixOf_iff sep (c :: rest)).1 hp
        rw [pySplit_cons_pos sep c rest hsep hp, ht, List.drop_left]
        rcases hq : pySplit sep t with _ | ⟨p, ps⟩
        · exact absurd hq (pySplit_ne_nil sep t)
        · have hlt : t.length ≤ n := by
            have hle : rest.length + 1 = sep.length + t.length := by
              have h0 := congrArg List.length ht
              simpa using h0
            have h3 : rest.length + 1 ≤ n + 1 := by simpa using hs
            omega
          have hjt := ih t hlt
          rw [hq] at hjt
          rw [pyJoin_cons sep [] (p :: ps) (by simp), hjt]
          simp
      · have hp' : sep.isPrefixOf (c :: rest) = false := by
          cases hb : sep.isPrefixOf (c :: rest)
          · rfl
          · exact absurd hb hp
        rcases hq : pySplit sep rest with _ | ⟨p, ps⟩
        · exact absurd hq (pySplit_ne_nil sep rest)
        · rw [pySplit_cons_neg sep c rest p ps hp' hq]
          have hrest := ih rest (by simpa using hs)
          rw [hq] at hrest
          cases ps with
          | nil =>
            have hpr : p = rest := by simpa [pyJoin] using hrest
            simp [pyJoin, hpr]
          | cons q qs =>
            rw [pyJoin_cons sep (c :: p) (q :: qs) (by simp)]
            rw [pyJoin_cons sep p (q :: qs) (by simp)] at hrest
            simp only [List.cons_append]
            rw [hrest]

/-- Round trip `"sep".join(s.split(sep)) == s`: splitting loses no content. -/
theorem pyJoin_pySplit_eq (sep : List Char) (hsep : sep ≠ []) (s : List Char) :
    pyJoin sep (pySplit sep s) = s :=
  pyJoin_pySplit sep hsep s.length s Nat.le.refl

theorem sepFree_of_noMidOcc (sep x : List Char) (h : noMidOcc sep x) :
    sepFree sep x := by
  intro i hi
  cases hb : sep.isPrefixOf (x.drop i)
  · rfl
  · obtain ⟨t, ht⟩ := (isPrefixOf_iff sep (x.drop i)).1 hb
    have hdrop : (x ++ sep).drop i = x.drop i ++ sep := by
      rw [List.drop_append_eq_append_drop, Nat.sub_eq_zero_of_le (Nat.le_of_lt hi),
        List.drop_zero]
    have : sep.isPrefixOf ((x ++ sep).drop i) = true := by
      rw [hdrop, ht, List.append_assoc]
      exact isPrefixOf_self_append sep (t ++ sep)
    rw [h i hi] at this
    exact absurd this (by simp)

theorem pySplit_of_sepFree (sep : List Char) (_hsep : sep ≠ []) :
    ∀ x : List Char, sepFree sep x → pySplit sep x = [x] := by
  intro x
  induction x with
  | nil => intro _; rfl
  | cons c rest ih =>
    intro h
    have hp : sep.isPrefixOf (c :: rest) = false := by
      have := h 0 (by simp)
      simpa using this
    have hrest : sepFree sep rest := by
      intro i hi
      have := h (i + 1) (by simpa using Nat.succ_lt_succ hi)
      simpa [List.drop_succ_cons] using this
    exact pySplit_cons_neg sep c rest rest [] hp (ih hrest)

theorem pySplit_sep_append (sep : List Char) (hsep : sep ≠ []) (t : List Char) :
    pySplit sep (sep ++ t) = [] :: pySplit sep t := by
  obtain ⟨a, as, hs⟩ : ∃ a as, sep = a :: as := by
    cases hs : sep with
    | nil => exact absurd hs hsep
    | cons a as => exact ⟨a, as, rfl⟩
  subst hs
  have hpre : (a :: as).isPrefixOf ((a :: as) ++ t) = true :=
    isPrefixOf_self_append (a :: as) t
  have h1 := pySplit_cons_pos (a :: as) a (as ++ t) (by simp) hpre
  have h2 : a :: (as ++ t) = (a :: as) ++ t := rfl
  rw [h2] at h1
  rw [h1, List.drop_left]

theorem pySplit_noMid_append (sep : List Char) (hsep : sep ≠ []) :
    ∀ (x t : List Char), noMidOcc sep x →
      pySplit sep (x ++ sep ++ t) = x :: pySplit sep t := by
  intro x
  induction x with
  | nil =>
    intro t _
    simpa using pySplit_sep_append sep hsep t
  | cons c x' ih =>
    intro t hmid
    have hshape : (c :: x') ++ sep ++ t = c :: (x' ++ sep ++ t) := by simp
    have hp : sep.isPrefixOf (c :: (x' ++ sep ++ t)) = false := by
      cases hb : sep.isPrefixOf (c :: (x' ++ sep ++ t))
      · rfl
      · exfalso
        have hle : sep.length ≤ ((c :: x') ++ sep).length := by
          simp only [List.length_append, List.length_cons]
          omega
        have hb2 : sep.isPrefixOf (((c :: x') ++ sep) ++ t) = true := by
          have : ((c :: x') ++ sep) ++ t = c :: (x' ++ sep ++ t) := by simp
          rw [this]; exact hb
        have hb3 := isPrefixOf_of_append sep ((c :: x') ++ sep) t hle hb2
        have h0 := hmid 0 (by simp)
        simp only [List.drop_zero] at h0
        rw [h0] at hb3
        exact absurd hb3 (by simp)
    have hmid' : noMidOcc sep x' := by
      intro i hi
      have := hmid (i + 1) (by simpa using Nat.succ_lt_succ hi)
      simpa [List.drop_succ_cons] using this
    rw [hshape]
    exact pySplit_cons_neg sep c (x' ++ sep ++ t) x' (pySplit sep t) hp (ih t hmid')

/-- Joining a list of separator-free pieces and splitting again recovers
the pieces: the round trip `sep.join(ps).split(sep) == ps` holds when no
piece contains an occurrence of `sep` and no piece except the last ends
in a way that creates one against the following separator. -/
theorem pySplit_pyJoin (sep : List Char) (hsep : sep ≠ []) :
    ∀ ps : List (List Char), ps ≠ [] →
      (∀ t ∈ ps.dropLast, noMidOcc sep t) →
      (∀ t, ps.getLast? = some t → sepFree sep t) →
      pySplit sep (pyJoin sep ps) = ps := by
  intro ps
  induction ps with
  | nil => intro h; exact absurd rfl h
  | cons x xs ih =>
    intro _ hmid hlast
    cases xs with
    | nil =>
      have hx : sepFree sep x := hlast x rfl
      exact pySplit_of_sepFree sep hsep x hx
    | cons y ys =>
      have hx : noMidOcc sep x := hmid x (by
        have : (x :: y :: ys).dropLast = x :: (y :: ys).dropLast := rfl
        rw [this]; exact List.mem_cons_self x _)
      have hmid' : ∀ t ∈ (y :: ys).dropLast, noMidOcc sep t := by
        intro t htm
        refine hmid t ?_
        have : (x :: y :: ys).dropLast = x :: (y :: ys).dropLast := rfl
        rw [this]
        exact List.mem_cons_of_mem x htm
      have hlast' : ∀ t, (y :: ys).getLast? = some t → sepFree sep t := by
        intro t htl
        exact hlast t (by rw [List.getLast?_cons_cons]; exact htl)
      have hjoin : pyJoin sep (x :: y :: ys) = x ++ sep ++ pyJoin sep (y :: ys) := rfl
      rw [hjoin, pySplit_noMid_append sep hsep x (pyJoin sep (y :: ys)) hx,
        ih (by simp) hmid' hlast']

/-- The pieces of `pySplit` contain no internal separator occurrence:
every piece but the last satisfies `noMidOcc`, and the last piece is
`sepFree`. -/
theorem pySplit_pieces (sep : List Char) (hsep : sep ≠ []) :
    ∀ (n : Nat) (s : List Char), s.length ≤ n →
      (∀ t ∈ (pySplit sep s).dropLast, noMidOcc sep t) ∧
      (∀ t, (pySplit sep s).getLast? = some t → sepFree sep t) := by
  have hlen : 1 ≤ sep.length := by
    cases hs : sep with
    | nil => exact absurd hs hsep
    | cons a as => simp [hs]
  intro n
  induction n with
  | zero =>
    intro s hs
    have : s = [] := List.eq_nil_of_length_eq_zero (Nat.le_zero.1 hs)
    subst this
    constructor
    · intro t htm; simp [pySplit_nil] at htm
    · intro t htl
      have : t = [] := by simpa [pySplit_nil] using htl
      subst this
      intro i hi; simp at hi
  | succ n ih =>
    intro s hs
    cases s with
    | nil =>
      constructor
      · intro t htm; simp [pySplit_nil] at htm
      · intro t htl
        have : t = [] := by simpa [pySplit_nil] using htl
        subst this
        intro i hi; simp at hi
    | cons c rest =>
      by_cases hp : sep.isPrefixOf (c :: rest) = true
      · obtain ⟨t0, ht0⟩ := (isPrefixOf_iff sep (c :: rest)).1 hp
        have hsplit : pySplit sep (c :: rest) = [] :: pySplit sep t0 := by
          rw [pySplit_cons_pos sep c rest hsep hp, ht0, List.drop_left]
        have hlt : t0.length ≤ n := by
          have hle : rest.length + 1 = sep.length + t0.length := by
            have h0 := congrArg List.length ht0
            simpa using h0
          have h3 : rest.length + 1 ≤ n + 1 := by simpa using hs
          omega
        obtain ⟨IH1, IH2⟩ := ih t0 hlt
        rcases hq : pySplit sep t0 with _ | ⟨p, ps⟩
        · exact absurd hq (pySplit_ne_nil sep t0)
        constructor
        · intro t htm
          rw [hsplit, hq] at htm
          have hdl : ([] :: p :: ps).dropLast = [] :: (p :: ps).dropLast := rfl
          rw [hdl] at htm
          rcases List.mem_cons.1 htm with h | h
          · subst h; intro i hi; simp at hi
          · exact IH1 t (by rw [hq]; exact h)
        · intro t htl
          rw [hsplit, hq, List.getLast?_cons_cons] at htl
          exact IH2 t (by rw [hq]; exact htl)
      · have hp' : sep.isPrefixOf (c :: rest) = false := by
          cases hb : sep.isPrefixOf (c :: rest)
          · rfl
          · exact absurd hb hp
        rcases hq : pySplit sep rest with _ | ⟨p, ps⟩
        · exact absurd hq (pySplit_ne_nil sep rest)
        have hsplit := pySplit_cons_neg sep c rest p ps hp' hq
        obtain ⟨IH1, IH2⟩ := ih rest (by simpa using hs)
        have hjrest : pyJoin sep (p :: ps) = rest := by
          rw [← hq]
          exact pyJoin_pySplit_eq sep hsep rest
        cases ps with
        | nil =>
          have hpr : p = rest := by simpa [pyJoin] using hjrest
          subst hpr
          constructor
          · intro t htm
            rw [hsplit] at htm
            simp at htm
          · intro t htl
            rw [hsplit] at htl
            simp only [List.getLast?_singleton, Option.some.injEq] at htl
            subst htl
            intro i hi
            cases i with
            | zero => simpa using hp'
            | succ i =>
              have hcln : sepFree sep p := IH2 p (by rw [hq]; rfl)
              have hi' : i < p.length := by
                simpa using Nat.lt_of_succ_lt_succ hi
              simpa [List.drop_succ_cons] using hcln i hi'
        | cons q qs =>
          have hrest_eq : rest = p ++ sep ++ pyJoin sep (q :: qs) := by
            rw [← hjrest, pyJoin_cons sep p (q :: qs) (by simp)]
          constructor
          · intro t htm
            rw [hsplit] at htm
            have hdl : ((c :: p) :: q :: qs).dropLast = (c :: p) :: (q :: qs).dropLast := rfl
            rw [hdl] at htm
            rcases List.mem_cons.1 htm with h | h
            · subst h
              intro i hi
              cases i with
              | zero =>
                simp only [List.drop_zero]
                cases hb : sep.isPrefixOf ((c :: p) ++ sep)
                · rfl
                · exfalso
                  obtain ⟨u, hu⟩ := (isPrefixOf_iff sep ((c :: p) ++ sep)).1 hb
                  have : sep.isPrefixOf (c :: rest) = true := by
                    refine (isPrefixOf_iff sep (c :: rest)).2 ⟨u ++ pyJoin sep (q :: qs), ?_⟩
                    have hcr : c :: rest = ((c :: p) ++ sep) ++ pyJoin sep (q :: qs) := by
                      rw [hrest_eq]; simp
                    rw [hcr, hu, List.append_assoc]
                  rw [hp'] at this
                  exact absurd this (by simp)
              | succ i =>
                have hpmid : noMidOcc sep p := by
                  refine IH1 p ?_
                  rw [hq]
                  have : (p :: q :: qs).dropLast = p :: (q :: qs).dropLast := rfl
                  rw [this]
                  exact List.mem_cons_self p _
                have hi' : i < p.length := by simpa using Nat.lt_of_succ_lt_succ hi
                have := hpmid i hi'
                simpa [List.drop_succ_cons] using this
            · refine IH1 t ?_
              rw [hq]
              have : (p :: q :: qs).dropLast = p :: (q :: qs).dropLast := rfl
              rw [this]
              exact List.mem_cons_of_mem p h
          · intro t htl
            rw [hsplit, List.getLast?_cons_cons] at htl
            refine IH2 t ?_
            rw [hq, List.getLast?_cons_cons]
            exact htl

theorem pyJoin_append (sep : List Char) :
    ∀ a b : List (List Char), a ≠ [] → b ≠ [] →
      pyJoin sep (a ++ b) = pyJoin sep a ++ sep ++ pyJoin sep b := by
  intro a
  induction a with
  | nil => intro b h _; exact absurd rfl h
  | cons x xs ih =>
    intro b _ hb
    cases xs with
    | nil =>
      simp only [List.singleton_append]
      rw [pyJoin_cons sep x b hb]
      rfl
    | cons y ys =>
      have h1 : (x :: y :: ys) ++ b = x :: ((y :: ys) ++ b) := rfl
      rw [h1, pyJoin_cons sep x ((y :: ys) ++ b) (by simp),
        ih b (by simp) hb,
        pyJoin_cons sep x (y :: ys) (by simp)]
      simp [List.append_assoc]

theorem pyJoin_length (sep : List Char) :
    ∀ ps : List (List Char), ps ≠ [] →
      (pyJoin sep ps).length = sumLen ps + sep.length * (ps.length - 1) := by
  intro ps
  induction ps with
  | nil => intro h; exact absurd rfl h
  | cons x xs ih =>
    intro _
    cases xs with
    | nil => simp [pyJoin, sumLen]
    | cons y ys =>
      rw [pyJoin_cons sep x (y :: ys) (by simp)]
      have h1 := ih (by simp)
      have h2 : (y :: ys).length - 1 = ys.length := by simp
      have h3 : (x :: y :: ys).length - 1 = ys.length + 1 := by simp
      rw [List.length_append, List.length_append, h1, h2, h3]
      have h4 : sumLen (x :: y :: ys) = x.length + sumLen (y :: ys) := by
        simp [sumLen]
      rw [h4, Nat.mul_add, Nat.mul_one]
      omega

theorem pyJoin_flatten (sep : List Char) :
    ∀ gs : List (List (List Char)), (∀ g ∈ gs, g ≠ []) →
      pyJoin sep (gs.map (pyJoin sep)) = pyJoin sep gs.flatten := by
  intro gs
  induction gs with
  | nil => intro _; rfl
  | cons g gs' ih =>
    intro hne
    cases gs' with
    | nil => simp [pyJoin]
    | cons g2 gs'' =>
      have hflat_ne : (g2 :: gs'').flatten ≠ [] := by
        have hg2 : g2 ≠ [] := hne g2 (by simp)
        cases hg : g2 with
        | nil => exact absurd hg hg2
        | cons a as => simp [List.flatten, hg]
      have hmap : (g :: g2 :: gs'').map (pyJoin sep) =
          pyJoin sep g :: (g2 :: gs'').map (pyJoin sep) := rfl
      rw [hmap, pyJoin_cons sep (pyJoin sep g) ((g2 :: gs'').map (pyJoin sep)) (by simp),
        ih (fun g hg => hne g (List.mem_cons_of_mem _ hg))]
      have hflat : (g :: g2 :: gs'').flatten = g ++ (g2 :: gs'').flatten := rfl
      rw [hflat, pyJoin_append sep g ((g2 :: gs'').flatten) (hne g (by simp)) hflat_ne]

/-! ### The scan loop: line-range partition and hierarchy invariants -/

theorem covers_append (c : MarkdownChunk) :
    ∀ (cs : List MarkdownChunk) (lo : Int),
      Covers cs lo (c.start_line - 1) → Covers (cs ++ [c]) lo c.end_line := by
  intro cs
  induction cs with
  | nil =>
    intro lo h
    have hlo : c.start_line = lo := by
      have h1 : c.start_line - 1 = lo - 1 := h
      omega
    refine ⟨hlo, ?_⟩
    have h2 : MarkdownChunk.end_line c = MarkdownChunk.end_line c + 1 - 1 := by omega
    exact h2
  | cons d ds ih =>
    intro lo h
    exact ⟨h.1, ih (d.end_line + 1) h.2⟩

theorem covers_ne_nil (cs : List MarkdownChunk) (lo hi : Int)
    (h : Covers cs lo hi) (hle : lo ≤ hi) : cs ≠ [] := by
  cases cs with
  | nil =>
    have : hi = lo - 1 := h
    omega
  | cons c cs' => simp

theorem covers_headD (cs : List MarkdownChunk) (lo hi : Int)
    (h : Covers cs lo hi) (hne : cs ≠ []) :
    (cs.headD dummyChunk).start_line = lo := by
  cases cs with
  | nil => exact absurd rfl hne
  | cons c cs' => exact h.1

theorem covers_getLast? (cs : List MarkdownChunk) :
    ∀ (lo hi : Int), Covers cs lo hi →
      ∀ c, cs.getLast? = some c → c.end_line = hi := by
  induction cs with
  | nil => intro lo hi _ c hc; simp at hc
  | cons d ds ih =>
    intro lo hi h c hc
    cases ds with
    | nil =>
      simp only [List.getLast?_singleton, Option.some.injEq] at hc
      subst hc
      have h2 : hi = d.end_line + 1 - 1 := h.2
      omega
    | cons e es =>
      rw [List.getLast?_cons_cons] at hc
      exact ih (d.end_line + 1) hi h.2 c hc

theorem covers_chain (cs : List MarkdownChunk) :
    ∀ (lo hi : Int), Covers cs lo hi →
      List.Chain' (fun a b => a.end_line + 1 = b.start_line) cs := by
  induction cs with
  | nil => intro lo hi _; simp
  | cons c cs' ih =>
    intro lo hi h
    rw [List.chain'_cons']
    refine ⟨?_, ih (c.end_line + 1) hi h.2⟩
    intro y hy
    cases cs' with
    | nil => simp at hy
    | cons d ds =>
      simp only [List.head?_cons, Option.mem_def, Option.some.injEq] at hy
      subst hy
      exact h.2.1.symm

theorem scanLine_content_ne (i : Nat) (line : List Char) (st : ScanState) :
    (scanLine i line st).current_content ≠ [] := by
  rw [scanLine]
  cases headerMatch line with
  | none => simp
  | some lv => simp

theorem scanLines_content_ne :
    ∀ (lines : List (List Char)) (i : Nat) (st : ScanState), lines ≠ [] →
      (scanLines i lines st).current_content ≠ [] := by
  intro lines
  induction lines with
  | nil => intro i st h; exact absurd rfl h
  | cons l ls ih =>
    intro i st _
    cases ls with
    | nil => exact scanLine_content_ne i l st
    | cons l2 ls' => exact ih (i + 1) (scanLine i l st) (by simp)

theorem scanLine_inv (i : Nat) (line : List Char) (st : ScanState)
    (h : ScanInv i st) : ScanInv (i + 1) (scanLine i line st) := by
  rw [scanLine]
  cases hm : headerMatch line with
  | none =>
    constructor
    · intro hc; simp at hc
    · intro _
      by_cases hc : st.current_content = []
      · obtain ⟨h1, h2, _⟩ := h.1 hc
        simp only [h1, h2]
        show (0 : Int) - 1 = 0 - 1
        rfl
      · exact h.2 hc
  | some lv =>
    obtain ⟨level, g2⟩ := lv
    constructor
    · intro hc; simp at hc
    · intro _
      by_cases hc : st.current_content = []
      · obtain ⟨h1, h2, _⟩ := h.1 hc
        rw [if_neg (by simp [hc])]
        simp only [h1, h2]
        show Covers [] 0 ((i : Int) - 1)
        obtain ⟨_, _, h3⟩ := h.1 hc
        subst h3
        show (0 : Int) - 1 = 0 - 1
        rfl
      · rw [if_pos hc]
        have hck := covers_append
          (create_chunk st.current_content st.header_stack st.current_level
            st.current_start ((i : Int) - 1) threshold_title)
          st.chunks 0 (h.2 hc)
        exact hck

theorem scanLines_inv :
    ∀ (lines : List (List Char)) (i : Nat) (st : ScanState),
      ScanInv i st → ScanInv (i + lines.length) (scanLines i lines st) := by
  intro lines
  induction lines with
  | nil => intro i st h; simpa using h
  | cons l ls ih =>
    intro i st h
    have h2 := ih (i + 1) (scanLine i l st) (scanLine_inv i l st h)
    rw [show i + (l :: ls).length = (i + 1) + ls.length by simp; omega]
    exact h2

theorem initState_inv : ScanInv 0 initState :=
  ⟨fun _ => ⟨rfl, rfl, rfl⟩, fun h => absurd rfl h⟩

theorem chunk_by_headers_none_eq (md : List Char) :
    chunk_by_headers none md = chunk_by_headers_raw md := rfl

theorem raw_covers (md : List Char) :
    Covers (chunk_by_headers_raw md) 0 (((pySplit nlSep md).length : Int) - 1) := by
  have hne : pySplit nlSep md ≠ [] := pySplit_ne_nil nlSep md
  have hinv := scanLines_inv (pySplit nlSep md) 0 initState initState_inv
  have hcne := scanLines_content_ne (pySplit nlSep md) 0 initState hne
  rw [chunk_by_headers_raw]
  rw [if_pos hcne]
  exact covers_append _ _ 0 (hinv.2 hcne)

theorem chain_gt_head (r : HeaderFrame) :
    ∀ rs : List HeaderFrame,
      List.Chain' (fun a b => b.level < a.level) (r :: rs) →
      ∀ f ∈ rs, f.level < r.level := by
  intro rs
  induction rs generalizing r with
  | nil => intro _ f hf; simp at hf
  | cons s rs' ih =>
    intro h f hf
    have hrs : s.level < r.level := (List.chain'_cons.1 h).1
    rcases List.mem_cons.1 hf with h1 | h1
    · subst h1; exact hrs
    · have := ih s (List.chain'_cons.1 h).2 f h1
      omega

theorem chain'_dropWhile {R : HeaderFrame → HeaderFrame → Prop}
    (q : HeaderFrame → Bool) :
    ∀ l : List HeaderFrame, List.Chain' R l → List.Chain' R (l.dropWhile q) := by
  intro l
  induction l with
  | nil => intro h; exact h
  | cons r l' ih =>
    intro h
    by_cases hq : q r = true
    · rw [List.dropWhile_cons_of_pos hq]
      exact ih (List.Chain'.tail h)
    · rw [List.dropWhile_cons_of_neg hq]
      exact h

theorem dropWhile_head_false (q : HeaderFrame → Bool) :
    ∀ (l : List HeaderFrame) (y : HeaderFrame),
      (l.dropWhile q).head? = some y → q y = false := by
  intro l
  induction l with
  | nil => intro y hy; simp at hy
  | cons r l' ih =>
    intro y hy
    by_cases hq : q r = true
    · rw [List.dropWhile_cons_of_pos hq] at hy
      exact ih y hy
    · rw [List.dropWhile_cons_of_neg hq] at hy
      simp only [List.head?_cons, Option.some.injEq] at hy
      subst hy
      simpa using hq

theorem popGE_level_lt (stack : List HeaderFrame) (lvl : Nat)
    (hchain : List.Chain' (fun a b => a.level < b.level) stack) :
    ∀ f ∈ popGE stack lvl, f.level < lvl := by
  intro f hf
  rw [popGE, List.mem_reverse] at hf
  have hrev : List.Chain' (fun a b => b.level < a.level) stack.reverse := by
    rw [List.chain'_reverse]
    exact hchain
  revert hf
  generalize stack.reverse = rs at hrev
  induction rs with
  | nil => intro hf; simp at hf
  | cons r rs' ih =>
    intro hf
    rw [List.dropWhile_cons] at hf
    split at hf
    case isTrue hq => exact ih (List.Chain'.tail hrev) hf
    case isFalse hq =>
      have hr : r.level < lvl := by
        simp only [decide_eq_true_eq] at hq
        omega
      rcases List.mem_cons.1 hf with h1 | h1
      · subst h1; exact hr
      · have := chain_gt_head r rs' hrev f h1
        omega

theorem popGE_chain (stack : List HeaderFrame) (lvl : Nat) (f : HeaderFrame)
    (hchain : List.Chain' (fun a b => a.level < b.level) stack)
    (hf : f.level = lvl) :
    List.Chain' (fun a b => a.level < b.level) (popGE stack lvl ++ [f]) := by
  rw [popGE]
  have hrev : List.Chain' (fun a b => b.level < a.level) stack.reverse := by
    rw [List.chain'_reverse]
    exact hchain
  set v := stack.reverse.dropWhile (fun g => decide (lvl ≤ g.level)) with hv
  have hvchain : List.Chain' (fun a b => b.level < a.level) v :=
    chain'_dropWhile _ stack.reverse hrev
  have hgoal : List.Chain' (fun a b => b.level < a.level) (f :: v) := by
    rw [List.chain'_cons']
    refine ⟨?_, hvchain⟩
    intro y hy
    have hq := dropWhile_head_false (fun g => decide (lvl ≤ g.level)) stack.reverse y hy
    simp only [decide_eq_false_iff_not, Nat.not_le] at hq
    omega
  have : v.reverse ++ [f] = (f :: v).reverse := by simp
  rw [this, List.chain'_reverse]
  exact hgoal

theorem snapOK_create (content_lines : List (List Char))
    (stack : List HeaderFrame) (level : Nat) (start fin : Int) (thr : Nat)
    (hchain : List.Chain' (fun a b => a.level < b.level) stack) :
    SnapOK (create_chunk content_lines stack level start fin thr, stack) := by
  refine ⟨hchain, ?_⟩
  by_cases hs : stack = []
  · subst hs; rfl
  · show (create_chunk content_lines stack level start fin thr).header_path = _
    rw [create_chunk]
    simp only [if_neg hs]
    rw [if_neg (by simpa using hs)]

theorem scanLineG_proj (i : Nat) (line : List Char) (st : ScanStateG) :
    projStateG (scanLineG i line st) = scanLine i line (projStateG st) := by
  cases hm : headerMatch line with
  | none =>
    simp [scanLineG, scanLine, hm, projStateG]
  | some lv =>
    obtain ⟨level, g2⟩ := lv
    by_cases hc : st.current_content = []
    · simp [scanLineG, scanLine, hm, projStateG, hc]
    · simp [scanLineG, scanLine, hm, projStateG, hc, List.map_append]

theorem scanLinesG_proj :
    ∀ (ls : List (List Char)) (i : Nat) (st : ScanStateG),
      projStateG (scanLinesG i ls st) = scanLines i ls (projStateG st) := by
  intro ls
  induction ls with
  | nil => intro i st; rfl
  | cons l ls' ih =>
    intro i st
    show projStateG (scanLinesG (i + 1) ls' (scanLineG i l st)) = _
    rw [ih (i + 1) (scanLineG i l st), scanLineG_proj]
    rfl

theorem scanG_final_fst (md : List Char) :
    (scanG_final md).map Prod.fst = chunk_by_headers_raw md := by
  rw [scanG_final, chunk_by_headers_raw]
  have hp := scanLinesG_proj (pySplit nlSep md) 0 initStateG
  have hinit : projStateG initStateG = initState := rfl
  rw [hinit] at hp
  rw [← hp]
  by_cases hc : (scanLinesG 0 (pySplit nlSep md) initStateG).current_content = []
  · rw [if_neg (by simp [hc]), if_neg (by simp [projStateG, hc])]
    rfl
  · rw [if_pos hc,
      if_pos (show (projStateG (scanLinesG 0 (pySplit nlSep md) initStateG)).current_content ≠ []
        from hc)]
    simp [projStateG, List.map_append]

theorem scanLineG_inv (i : Nat) (line : List Char) (st : ScanStateG)
    (h : StackInvG st) : StackInvG (scanLineG i line st) := by
  rw [scanLineG]
  cases hm : headerMatch line with
  | none => exact ⟨h.1, h.2⟩
  | some lv =>
    obtain ⟨level, g2⟩ := lv
    by_cases hc : st.current_content = []
    · rw [if_neg (by simp [hc])]
      exact ⟨popGE_chain st.header_stack level _ h.1 rfl, h.2⟩
    · rw [if_pos hc]
      refine ⟨popGE_chain st.header_stack level _ h.1 rfl, ?_⟩
      intro p hp
      simp only [List.mem_append, List.mem_singleton] at hp
      rcases hp with h1 | h1
      · exact h.2 p h1
      · subst h1
        exact snapOK_create _ _ _ _ _ _ h.1

theorem scanLinesG_inv :
    ∀ (lines : List (List Char)) (i : Nat) (st : ScanStateG),
      StackInvG st → StackInvG (scanLinesG i lines st) := by
  intro lines
  induction lines with
  | nil => intro i st h; exact h
  | cons l ls ih =>
    intro i st h
    exact ih (i + 1) (scanLineG i l st) (scanLineG_inv i l st h)

theorem scanG_final_snapOK (md : List Char) :
    ∀ p ∈ scanG_final md, SnapOK p := by
  have hinv := scanLinesG_inv (pySplit nlSep md) 0 initStateG
    ⟨List.chain'_nil, fun p hp => absurd hp (by simp [initStateG])⟩
  intro p hp
  rw [scanG_final] at hp
  by_cases hc : (scanLinesG 0 (pySplit nlSep md) initStateG).current_content ≠ []
  · rw [if_pos hc] at hp
    simp only [List.mem_append, List.mem_singleton] at hp
    rcases hp with h1 | h1
    · exact hinv.2 p h1
    · subst h1
      exact snapOK_create _ _ _ _ _ _ hinv.1
  · rw [if_neg hc] at hp
    exact hinv.2 p hp

theorem raw_snapshots (md : List Char) :
    (chunk_by_headers_raw md).map MarkdownChunk.header_path =
      (chunk_snapshots md).map
        (fun fs => if fs = [] then [docRoot] else fs.map HeaderFrame.title) ∧
    ∀ fs ∈ chunk_snapshots md,
      List.Chain' (fun a b => a.level < b.level) fs := by
  constructor
  · rw [← scanG_final_fst md, chunk_snapshots, List.map_map, List.map_map]
    refine List.map_congr_left ?_
    intro p hp
    have hsnap := (scanG_final_snapOK md p hp).2
    simpa [Function.comp] using hsnap
  · intro fs hfs
    rw [chunk_snapshots, List.mem_map] at hfs
    obtain ⟨p, hp, rfl⟩ := hfs
    exact (scanG_final_snapOK md p hp).1

theorem scanLines_no_headers :
    ∀ (lines : List (List Char)) (i : Nat) (st : ScanState),
      (∀ l ∈ lines, headerMatch l = none) →
      scanLines i lines st =
        { st with current_content := st.current_content ++ lines } := by
  intro lines
  induction lines with
  | nil => intro i st _; simp [scanLines]
  | cons l ls ih =>
    intro i st hall
    have hm : headerMatch l = none := hall l (by simp)
    show scanLines (i + 1) ls (scanLine i l st) = _
    rw [show scanLine i l st =
        { st with current_content := st.current_content ++ [l] } by
      rw [scanLine, hm]]
    rw [ih (i + 1) _ (fun x hx => hall x (List.mem_cons_of_mem l hx))]
    simp

/-! ### The subdivision pass -/

theorem dropLast_append_ne (a : List (List Char)) :
    ∀ b : List (List Char), b ≠ [] → (a ++ b).dropLast = a ++ b.dropLast := by
  induction a with
  | nil => intro b _; simp
  | cons x a' ih =>
    intro b hb
    have h1 : (x :: a') ++ b = x :: (a' ++ b) := rfl
    have h2 : a' ++ b ≠ [] := by
      intro h
      rcases List.append_eq_nil.1 h with ⟨_, h4⟩
      exact hb h4
    rw [h1]
    cases hab : a' ++ b with
    | nil => exact absurd hab h2
    | cons y ys =>
      have h3 : (x :: y :: ys).dropLast = x :: (y :: ys).dropLast := rfl
      rw [h3, ← hab, ih b hb]
      rfl

theorem getLast?_append_ne (a : List (List Char)) :
    ∀ b : List (List Char), b ≠ [] → (a ++ b).getLast? = b.getLast? := by
  induction a with
  | nil => intro b _; simp
  | cons x a' ih =>
    intro b hb
    have h1 : (x :: a') ++ b = x :: (a' ++ b) := rfl
    have h2 : a' ++ b ≠ [] := by
      intro h
      rcases List.append_eq_nil.1 h with ⟨_, h4⟩
      exact hb h4
    rw [h1]
    cases hab : a' ++ b with
    | nil => exact absurd hab h2
    | cons y ys =>
      rw [List.getLast?_cons_cons, ← hab, ih b hb]

theorem getLast?_mem (l : List (List Char)) :
    ∀ x, l.getLast? = some x → x ∈ l := by
  induction l with
  | nil => intro x hx; simp at hx
  | cons a as ih =>
    intro x hx
    cases as with
    | nil =>
      simp only [List.getLast?_singleton, Option.some.injEq] at hx
      subst hx
      simp
    | cons b bs =>
      rw [List.getLast?_cons_cons] at hx
      exact List.mem_cons_of_mem a (ih x hx)

theorem subRun_nil (N : Nat) (p : MarkdownChunk) (sub : List (List Char)) (ss : Int) :
    subRun N p [] sub ss =
      if sub ≠ [] then
        [{ content := pyJoin nnSep sub, header_path := p.header_path,
           level := p.level, start_line := ss, end_line := p.end_line }]
      else [] := by
  rw [subRun]
  simp only [subLoop]
  rw [List.nil_append]

theorem subRun_cons_close (N : Nat) (p : MarkdownChunk) (para : List Char)
    (rest sub : List (List Char)) (ss : Int)
    (h : ((sub.map List.length).sum + para.length > N) ∧ sub ≠ []) :
    subRun N p (para :: rest) sub ss =
      { content := pyJoin nnSep sub, header_path := p.header_path,
        level := p.level, start_line := ss,
        end_line := ss + (sub.length : Int) - 1 } :: subRun N p rest [para] (ss + 1) := by
  rw [subRun, subRun, subLoop, if_pos h]
  simp

theorem subRun_cons_else (N : Nat) (p : MarkdownChunk) (para : List Char)
    (rest sub : List (List Char)) (ss : Int)
    (h : ¬(((sub.map List.length).sum + para.length > N) ∧ sub ≠ [])) :
    subRun N p (para :: rest) sub ss = subRun N p rest (sub ++ [para]) ss := by
  rw [subRun, subRun, subLoop, if_neg h]

theorem subdivide_chunk_eq (N : Nat) (c : MarkdownChunk) :
    subdivide_chunk N c = subRun N c (pySplit nnSep c.content) [] c.start_line := by
  rw [subdivide_chunk, subRun]
  by_cases hr : (subLoop N c (pySplit nnSep c.content) [] c.start_line).2.1 ≠ []
  · rw [if_pos hr, if_pos hr]
  · rw [if_neg hr, if_neg hr, List.append_nil]

theorem subRun_ne_nil (N : Nat) (p : MarkdownChunk) :
    ∀ (paras sub : List (List Char)) (ss : Int), sub ≠ [] →
      subRun N p paras sub ss ≠ [] := by
  intro paras
  induction paras with
  | nil =>
    intro sub ss hsub
    rw [subRun_nil, if_pos hsub]
    simp
  | cons para rest ih =>
    intro sub ss hsub
    by_cases h : ((sub.map List.length).sum + para.length > N) ∧ sub ≠ []
    · rw [subRun_cons_close N p para rest sub ss h]
      simp
    · rw [subRun_cons_else N p para rest sub ss h]
      exact ih (sub ++ [para]) ss (by simp)

theorem subRun_frame (N : Nat) (p : MarkdownChunk) :
    ∀ (paras sub : List (List Char)) (ss : Int) (c : MarkdownChunk),
      c ∈ subRun N p paras sub ss →
      c.header_path = p.header_path ∧ c.level = p.level := by
  intro paras
  induction paras with
  | nil =>
    intro sub ss c hc
    rw [subRun_nil] at hc
    by_cases hsub : sub ≠ []
    · rw [if_pos hsub] at hc
      simp only [List.mem_singleton] at hc
      subst hc
      exact ⟨rfl, rfl⟩
    · rw [if_neg hsub] at hc
      simp at hc
  | cons para rest ih =>
    intro sub ss c hc
    by_cases h : ((sub.map List.length).sum + para.length > N) ∧ sub ≠ []
    · rw [subRun_cons_close N p para rest sub ss h] at hc
      rcases List.mem_cons.1 hc with h1 | h1
      · subst h1; exact ⟨rfl, rfl⟩
      · exact ih [para] (ss + 1) c h1
    · rw [subRun_cons_else N p para rest sub ss h] at hc
      exact ih (sub ++ [para]) ss c hc

theorem subRun_join (N : Nat) (p : MarkdownChunk) :
    ∀ (paras sub : List (List Char)) (ss : Int), sub ≠ [] →
      pyJoin nnSep ((subRun N p paras sub ss).map MarkdownChunk.content) =
        pyJoin nnSep (sub ++ paras) := by
  intro paras
  induction paras with
  | nil =>
    intro sub ss hsub
    rw [subRun_nil, if_pos hsub]
    simp [pyJoin]
  | cons para rest ih =>
    intro sub ss hsub
    by_cases h : ((sub.map List.length).sum + para.length > N) ∧ sub ≠ []
    · rw [subRun_cons_close N p para rest sub ss h]
      have hne := subRun_ne_nil N p rest [para] (ss + 1) (by simp)
      have hmapne : (subRun N p rest [para] (ss + 1)).map MarkdownChunk.content ≠ [] := by
        simpa using hne
      rw [List.map_cons,
        pyJoin_cons nnSep _ ((subRun N p rest [para] (ss + 1)).map MarkdownChunk.content)
          hmapne,
        ih [para] (ss + 1) (by simp),
        pyJoin_append nnSep sub (para :: rest) hsub (by simp)]
      rfl
    · rw [subRun_cons_else N p para rest sub ss h,
        ih (sub ++ [para]) ss (by simp)]
      simp

theorem subRun_starts (N : Nat) (p : MarkdownChunk) :
    ∀ (paras sub : List (List Char)) (ss : Int), sub ≠ [] →
      ((subRun N p paras sub ss).headD dummyChunk).start_line = ss ∧
      List.Chain' (fun a b => b.start_line = a.start_line + 1)
        (subRun N p paras sub ss) ∧
      (∀ c, (subRun N p paras sub ss).getLast? = some c →
        c.end_line = p.end_line) := by
  intro paras
  induction paras with
  | nil =>
    intro sub ss hsub
    rw [subRun_nil, if_pos hsub]
    refine ⟨rfl, by simp, ?_⟩
    intro c hc
    simp only [List.getLast?_singleton, Option.some.injEq] at hc
    subst hc
    rfl
  | cons para rest ih =>
    intro sub ss hsub
    by_cases h : ((sub.map List.length).sum + para.length > N) ∧ sub ≠ []
    · rw [subRun_cons_close N p para rest sub ss h]
      obtain ⟨ih1, ih2, ih3⟩ := ih [para] (ss + 1) (by simp)
      have hne := subRun_ne_nil N p rest [para] (ss + 1) (by simp)
      refine ⟨rfl, ?_, ?_⟩
      · rw [List.chain'_cons']
        refine ⟨?_, ih2⟩
        intro y hy
        have : (subRun N p rest [para] (ss + 1)).headD dummyChunk = y := by
          cases hr : subRun N p rest [para] (ss + 1) with
          | nil => exact absurd hr hne
          | cons a as =>
            rw [hr] at hy
            simp only [List.head?_cons, Option.mem_def, Option.some.injEq] at hy
            subst hy
            rfl
        rw [← this, ih1]
      · intro c hc
        cases hr : subRun N p rest [para] (ss + 1) with
        | nil => exact absurd hr hne
        | cons a as =>
          rw [hr] at hc
          rw [List.getLast?_cons_cons] at hc
          apply ih3
          rw [hr]
          exact hc
    · rw [subRun_cons_else N p para rest sub ss h]
      exact ih (sub ++ [para]) ss (by simp)

theorem sumLen_cases (N : Nat) (sub : List (List Char)) (hsub : sub ≠ [])
    (hinv : 2 ≤ sub.length → sumLen sub ≤ N) :
    sub.length = 1 ∨ sumLen sub ≤ N := by
  cases sub with
  | nil => exact absurd rfl hsub
  | cons x xs =>
    cases xs with
    | nil => exact Or.inl rfl
    | cons y ys => exact Or.inr (hinv (by simp))

theorem subRun_budget (N : Nat) (p : MarkdownChunk) :
    ∀ (paras sub : List (List Char)) (ss : Int), sub ≠ [] →
      (2 ≤ sub.length → sumLen sub ≤ N) →
      (∀ t ∈ (sub ++ paras).dropLast, noMidOcc nnSep t) →
      (∀ t, (sub ++ paras).getLast? = some t → sepFree nnSep t) →
      ∀ c ∈ subRun N p paras sub ss,
        ∃ ps : List (List Char), ps ≠ [] ∧ c.content = pyJoin nnSep ps ∧
          pySplit nnSep c.content = ps ∧ (ps.length = 1 ∨ sumLen ps ≤ N) := by
  have hnn : nnSep ≠ [] := by simp [nnSep]
  intro paras
  induction paras with
  | nil =>
    intro sub ss hsub hinv hmid hlast c hc
    rw [subRun_nil, if_pos hsub] at hc
    simp only [List.mem_singleton] at hc
    subst hc
    refine ⟨sub, hsub, rfl, ?_, ?_⟩
    · show pySplit nnSep (pyJoin nnSep sub) = sub
      refine pySplit_pyJoin nnSep hnn sub hsub ?_ ?_
      · intro t htm
        exact hmid t (by rw [List.append_nil]; exact htm)
      · intro t htl
        exact hlast t (by rw [List.append_nil]; exact htl)
    · exact sumLen_cases N sub hsub hinv
  | cons para rest ih =>
    intro sub ss hsub hinv hmid hlast c hc
    have hshape : sub ++ para :: rest = (sub ++ [para]) ++ rest := by simp
    by_cases h : ((sub.map List.length).sum + para.length > N) ∧ sub ≠ []
    · rw [subRun_cons_close N p para rest sub ss h] at hc
      have hsubmid : ∀ t ∈ sub, noMidOcc nnSep t := by
        intro t htm
        refine hmid t ?_
        rw [dropLast_append_ne sub (para :: rest) (by simp)]
        exact List.mem_append_left _ htm
      rcases List.mem_cons.1 hc with h1 | h1
      · subst h1
        refine ⟨sub, hsub, rfl, ?_, ?_⟩
        · show pySplit nnSep (pyJoin nnSep sub) = sub
          refine pySplit_pyJoin nnSep hnn sub hsub ?_ ?_
          · intro t htm
            exact hsubmid t (List.dropLast_subset sub htm)
          · intro t htl
            exact sepFree_of_noMidOcc nnSep t (hsubmid t (getLast?_mem sub t htl))
        · exact sumLen_cases N sub hsub hinv
      · refine ih [para] (ss + 1) (by simp) (by intro h2; simp at h2) ?_ ?_ c h1
        · intro t htm
          refine hmid t ?_
          rw [dropLast_append_ne sub (para :: rest) (by simp)]
          exact List.mem_append_right _ htm
        · intro t htl
          refine hlast t ?_
          rw [getLast?_append_ne sub (para :: rest) (by simp)]
          exact htl
    · rw [subRun_cons_else N p para rest sub ss h] at hc
      refine ih (sub ++ [para]) ss (by simp) ?_ ?_ ?_ c hc
      · intro h2
        by_cases hne : sub = []
        · subst hne
          simp at h2
        · have hle : (sub.map List.length).sum + para.length ≤ N := by
            by_contra hgt
            exact h ⟨by omega, hne⟩
          have heq : sumLen (sub ++ [para]) = (sub.map List.length).sum + para.length := by
            simp [sumLen]
          omega
      · intro t htm
        rw [← hshape] at htm
        exact hmid t htm
      · intro t htl
        rw [← hshape] at htl
        exact hlast t htl

/-! ### Remaining helper lemmas -/

theorem getLastD_eq_of_getLast? (l : List (List Char)) :
    ∀ x : List Char, l.getLast? = some x → l.getLastD [] = x := by
  induction l with
  | nil => intro x hx; simp at hx
  | cons a as ih =>
    intro x hx
    cases as with
    | nil =>
      simp only [List.getLast?_singleton, Option.some.injEq] at hx
      subst hx
      rfl
    | cons b bs =>
      rw [List.getLast?_cons_cons] at hx
      have := ih x hx
      simpa [List.getLastD] using this

theorem getLast?_exists_chunks (l : List MarkdownChunk) (h : l ≠ []) :
    ∃ x, l.getLast? = some x := by
  induction l with
  | nil => exact absurd rfl h
  | cons a as ih =>
    cases as with
    | nil => exact ⟨a, rfl⟩
    | cons b bs =>
      obtain ⟨x, hx⟩ := ih (by simp)
      exact ⟨x, by rw [List.getLast?_cons_cons]; exact hx⟩

theorem getLastD_eq_chunks (l : List MarkdownChunk) :
    ∀ x : MarkdownChunk, l.getLast? = some x → l.getLastD dummyChunk = x := by
  induction l with
  | nil => intro x hx; simp at hx
  | cons a as ih =>
    intro x hx
    cases as with
    | nil =>
      simp only [List.getLast?_singleton, Option.some.injEq] at hx
      subst hx
      rfl
    | cons b bs =>
      rw [List.getLast?_cons_cons] at hx
      have := ih x hx
      simpa [List.getLastD] using this

theorem takeWhile_append_drop (p : Char → Bool) :
    ∀ l : List Char, l.takeWhile p ++ l.drop (l.takeWhile p).length = l := by
  intro l
  induction l with
  | nil => rfl
  | cons c cs ih =>
    by_cases hp : p c = true
    · rw [List.takeWhile_cons_of_pos hp]
      simpa using ih
    · rw [List.takeWhile_cons_of_neg hp]
      rfl

theorem mem_takeWhile_p (p : Char → Bool) :
    ∀ (l : List Char) (x : Char), x ∈ l.takeWhile p → p x = true := by
  intro l
  induction l with
  | nil => intro x hx; simp at hx
  | cons c cs ih =>
    intro x hx
    by_cases hp : p c = true
    · rw [List.takeWhile_cons_of_pos hp] at hx
      rcases List.mem_cons.1 hx with h1 | h1
      · subst h1; exact hp
      · exact ih x h1
    · rw [List.takeWhile_cons_of_neg hp] at hx
      simp at hx

theorem isPySpace_ne_hash (c : Char) (h : isPySpace c = true) :
    (c == '#') = false := by
  cases hb : c == '#'
  · rfl
  · have : c = '#' := by simpa using hb
    subst this
    simp [isPySpace] at h

theorem takeWhile_hash_full (L : Nat) :
    ∀ (w : List Char), (∀ c ∈ w, isPySpace c = true) →
      ∀ r : List Char, w ≠ [] →
        (List.replicate L '#' ++ w ++ r).takeWhile (fun c => c == '#') =
          List.replicate L '#' := by
  induction L with
  | zero =>
    intro w hw r hwne
    cases w with
    | nil => exact absurd rfl hwne
    | cons wc wt =>
      have hhash : (wc == '#') = false := isPySpace_ne_hash wc (hw wc (by simp))
      simp only [List.replicate, List.nil_append, List.cons_append]
      rw [List.takeWhile_cons_of_neg (by simp [hhash])]
  | succ L ih =>
    intro w hw r hwne
    have h1 : List.replicate (L + 1) '#' = '#' :: List.replicate L '#' := rfl
    rw [h1]
    have h2 : ('#' :: List.replicate L '#') ++ w ++ r =
        '#' :: (List.replicate L '#' ++ w ++ r) := by simp
    rw [h2, List.takeWhile_cons_of_pos (by simp)]
    rw [ih w hw r hwne]

theorem sumLen_split_le (s : List Char) :
    sumLen (pySplit nnSep s) ≤ s.length := by
  have hnn : nnSep ≠ [] := by simp [nnSep]
  have hj := pyJoin_pySplit_eq nnSep hnn s
  have hne := pySplit_ne_nil nnSep s
  have hl := pyJoin_length nnSep (pySplit nnSep s) hne
  rw [hj] at hl
  omega

theorem length_split_formula (s : List Char) :
    s.length + 2 = sumLen (pySplit nnSep s) + 2 * (pySplit nnSep s).length := by
  have hnn : nnSep ≠ [] := by simp [nnSep]
  have hj := pyJoin_pySplit_eq nnSep hnn s
  have hne := pySplit_ne_nil nnSep s
  have hl := pyJoin_length nnSep (pySplit nnSep s) hne
  rw [hj] at hl
  have hpos : 1 ≤ (pySplit nnSep s).length := by
    cases hq : pySplit nnSep s with
    | nil => exact absurd hq hne
    | cons a as => simp [hq]
  have hsep2 : nnSep.length = 2 := rfl
  rw [hsep2] at hl
  omega

theorem subdivide_chunk_budget (N : Nat) (parent c : MarkdownChunk)
    (hc : c ∈ subdivide_chunk N parent) :
    ∃ ps : List (List Char), ps ≠ [] ∧ c.content = pyJoin nnSep ps ∧
      pySplit nnSep c.content = ps ∧ (ps.length = 1 ∨ sumLen ps ≤ N) := by
  have hnn : nnSep ≠ [] := by simp [nnSep]
  rw [subdivide_chunk_eq] at hc
  rcases hq : pySplit nnSep parent.content with _ | ⟨q, qs⟩
  · exact absurd hq (pySplit_ne_nil nnSep parent.content)
  rw [hq, subRun_cons_else N parent q qs [] parent.start_line (by simp)] at hc
  refine subRun_budget N parent qs [q] parent.start_line (by simp)
    (by intro h2; simp at h2) ?_ ?_ c hc
  · intro t htm
    have h1 : ([q] ++ qs : List (List Char)) = q :: qs := rfl
    rw [h1, ← hq] at htm
    exact (pySplit_pieces nnSep hnn parent.content.length parent.content
      Nat.le.refl).1 t htm
  · intro t htl
    have h1 : ([q] ++ qs : List (List Char)) = q :: qs := rfl
    rw [h1, ← hq] at htl
    exact (pySplit_pieces nnSep hnn parent.content.length parent.content
      Nat.le.refl).2 t htl

/-! ### Claims -/

/-- C1, counterexample: with `max_chunk_size = 5` the document
`"aaa\n\nb"` (content length 6, two paragraphs of lengths 3 and 1, both
within budget) is subdivided into a single sub-chunk of content length
6 > 5 that is not a single over-budget paragraph: the greedy condition
sums bare paragraph lengths and ignores the two-character `"\n\n"`
separators re-inserted by the join. -/
theorem C1_counterexample :
    (chunk_by_headers (some 5) ("aaa\n\nb".toList)).map MarkdownChunk.content =
      ["aaa\n\nb".toList] ∧
    ("aaa\n\nb".toList).length = 6 ∧
    pySplit nnSep ("aaa\n\nb".toList) = ["aaa".toList, "b".toList] ∧
    ("aaa".toList).length ≤ 5 ∧ ("b".toList).length ≤ 5 := by decide

/-- C1, amended: every sub-chunk produced by the Size-Bounded Subdivider
either is a single paragraph, or the total length of its paragraphs
excluding the `"\n\n"` separators is at most `N` — so its content length
is at most `N + 2·(k−1)` for `k` packed paragraphs, not at most `N`;
chunks whose content length is within the budget pass through
unchanged. -/
theorem C1_budget_amended :
    (∀ (N : Nat) (cs : List MarkdownChunk) (c : MarkdownChunk),
      c ∈ subdivide_large_chunks N cs →
      (pySplit nnSep c.content).length = 1 ∨
        (sumLen (pySplit nnSep c.content) ≤ N ∧
         c.content.length + 2 ≤ N + 2 * (pySplit nnSep c.content).length)) ∧
    (∀ (N : Nat) (c : MarkdownChunk), c.content.length ≤ N →
      subdivide_large_chunks N [c] = [c]) := by
  constructor
  · intro N cs c hc
    rw [subdivide_large_chunks] at hc
    rw [List.mem_flatten] at hc
    obtain ⟨l, hl, hcl⟩ := hc
    rw [List.mem_map] at hl
    obtain ⟨parent, _, hpl⟩ := hl
    subst hpl
    by_cases hsize : parent.content.length ≤ N
    · rw [if_pos hsize] at hcl
      simp only [List.mem_singleton] at hcl
      subst hcl
      refine Or.inr ⟨Nat.le_trans (sumLen_split_le c.content) hsize, ?_⟩
      have hf := length_split_formula c.content
      have hs := sumLen_split_le c.content
      omega
    · rw [if_neg hsize] at hcl
      obtain ⟨ps, hne, hcontent, hsplit, hdisj⟩ :=
        subdivide_chunk_budget N parent c hcl
      rw [hsplit]
      rcases hdisj with h1 | h1
      · exact Or.inl h1
      · refine Or.inr ⟨h1, ?_⟩
        have hf := length_split_formula c.content
        rw [hsplit] at hf
        omega
  · intro N c hle
    rw [subdivide_large_chunks]
    simp only [List.map_cons, List.map_nil, if_pos hle]
    rfl

/-- C1, witness for the amended theorem: the sub-chunk produced from
`"aaa\n\nb"` under budget 5 satisfies the corrected bound, and a chunk
within budget passes through. -/
theorem C1_budget_amended_witness :
    ((pySplit nnSep ("aaa\n\nb".toList)).length = 1 ∨
      (sumLen (pySplit nnSep ("aaa\n\nb".toList)) ≤ 5 ∧
       ("aaa\n\nb".toList).length + 2 ≤ 5 + 2 * (pySplit nnSep ("aaa\n\nb".toList)).length)) ∧
    subdivide_large_chunks 6 [dummyChunk] = [dummyChunk] :=
  ⟨C1_budget_amended.1 5
      [{ content := "aaa\n\nb".toList, header_path := [docRoot], level := 0,
         start_line := 0, end_line := 2 }]
      { content := "aaa\n\nb".toList, header_path := [docRoot], level := 0,
        start_line := 0, end_line := 2 } (by decide),
   C1_budget_amended.2 6 dummyChunk (by decide)⟩

/-- C2: for every document, the unsubdivided chunk list partitions the
line indices exactly: it is non-empty, the first chunk starts at line 0,
the last chunk ends at `total_lines - 1`, and every adjacent pair
satisfies `end_line[i] + 1 = start_line[i+1]`. -/
theorem C2_partition (md : List Char) :
    chunk_by_headers none md ≠ [] ∧
    ((chunk_by_headers none md).headD dummyChunk).start_line = 0 ∧
    ((chunk_by_headers none md).getLastD dummyChunk).end_line =
      ((pySplit nlSep md).length : Int) - 1 ∧
    List.Chain' (fun a b => a.end_line + 1 = b.start_line)
      (chunk_by_headers none md) := by
  have hcov := raw_covers md
  rw [chunk_by_headers_none_eq]
  have hlenpos : 1 ≤ (pySplit nlSep md).length := by
    have hne := pySplit_ne_nil nlSep md
    cases hq : pySplit nlSep md with
    | nil => exact absurd hq hne
    | cons a as => simp [hq]
  have hle : (0 : Int) ≤ ((pySplit nlSep md).length : Int) - 1 := by
    have h1 : (1 : Int) ≤ ((pySplit nlSep md).length : Int) := by
      exact_mod_cast hlenpos
    omega
  have hne := covers_ne_nil _ _ _ hcov hle
  obtain ⟨x, hx⟩ := getLast?_exists_chunks _ hne
  refine ⟨hne, covers_headD _ _ _ hcov hne, ?_, covers_chain _ _ _ hcov⟩
  rw [getLastD_eq_chunks _ x hx]
  exact covers_getLast? _ _ _ hcov x hx

/-- C3, counterexample: the line `"#  "` (one `#`, two spaces) consists
of 1-6 `#` followed only by whitespace, yet the regex matches it (the
greedy `\s+` gives one space back to `.+`), so `chunk_by_headers` opens a
chunk of level 1 whose header frame carries the empty title — the line is
not treated as ordinary content. -/
theorem C3_counterexample :
    headerMatch ("#  ".toList) = some (1, [' ']) ∧
    chunk_by_headers none ("#  ".toList) =
      [{ content := ['#'], header_path := [[]], level := 1,
         start_line := 0, end_line := 0 }] := by decide

/-- C3, amended: a line is treated as a header iff it has 1-6 leading
`#`, then at least one whitespace character, then at least one further
character of any kind — the remaining text need not be non-empty after
trimming, so `#`s followed by two or more whitespace characters do match,
with an empty trimmed title. -/
theorem C3_header_amended (line : List Char) :
    (headerMatch line).isSome = true ↔
      ∃ (L : Nat) (w r : List Char), 1 ≤ L ∧ L ≤ 6 ∧ w ≠ [] ∧
        (∀ ch ∈ w, isPySpace ch = true) ∧ r ≠ [] ∧
        line = List.replicate L '#' ++ w ++ r := by
  constructor
  · intro hs
    simp only [headerMatch] at hs
    by_cases h16 : 1 ≤ (line.takeWhile (fun c => c == '#')).length ∧
        (line.takeWhile (fun c => c == '#')).length ≤ 6
    · rw [if_pos h16] at hs
      rcases hrest : line.drop (line.takeWhile (fun c => c == '#')).length
        with _ | ⟨c, cs⟩
      · rw [hrest] at hs
        simp at hs
      · rw [hrest] at hs
        by_cases hcond : isPySpace c = true ∧ cs ≠ []
        · refine ⟨(line.takeWhile (fun c => c == '#')).length, [c], cs,
            h16.1, h16.2, by simp, ?_, hcond.2, ?_⟩
          · intro ch hch
            simp only [List.mem_singleton] at hch
            subst hch
            exact hcond.1
          · have hrep : line.takeWhile (fun c => c == '#') =
                List.replicate (line.takeWhile (fun c => c == '#')).length '#' := by
              refine List.eq_replicate_of_mem ?_
              intro b hb
              have := mem_takeWhile_p (fun c => c == '#') line b hb
              simpa using this
            calc line
                = line.takeWhile (fun c => c == '#') ++
                    line.drop (line.takeWhile (fun c => c == '#')).length :=
                  (takeWhile_append_drop (fun c => c == '#') line).symm
              _ = List.replicate (line.takeWhile (fun c => c == '#')).length '#' ++
                    (c :: cs) := by rw [hrest, ← hrep]
              _ = List.replicate (line.takeWhile (fun c => c == '#')).length '#' ++
                    [c] ++ cs := by simp
        · exfalso
          dsimp only at hs
          rw [if_neg hcond] at hs
          simp at hs
    · rw [if_neg h16] at hs
      simp at hs
  · rintro ⟨L, w, r, h1, h2, hw, hwall, hr, rfl⟩
    have htw := takeWhile_hash_full L w hwall r hw
    simp only [headerMatch, htw, List.length_replicate]
    rw [if_pos ⟨h1, h2⟩]
    have hdrop : (List.replicate L '#' ++ w ++ r).drop L = w ++ r := by
      rw [List.append_assoc]
      have hdl := List.drop_left (List.replicate L '#') (w ++ r)
      rwa [List.length_replicate] at hdl
    rw [hdrop]
    cases w with
    | nil => exact absurd rfl hw
    | cons wc wt =>
      have hwc : isPySpace wc = true := hwall wc (by simp)
      have hcons : (wc :: wt) ++ r = wc :: (wt ++ r) := rfl
      rw [hcons]
      have hcond : isPySpace wc = true ∧ wt ++ r ≠ [] := by
        refine ⟨hwc, ?_⟩
        intro hnil
        rcases List.append_eq_nil.1 hnil with ⟨_, h4⟩
        exact hr h4
      simp only [if_pos hcond]
      rfl

/-- C4: the tracker pops all frames of level `≥ L` before pushing
`(L, title)` (under the stack chain invariant); the `header_path`s of
the chunks are exactly the title projections of the per-chunk stack
snapshots computed by the scan (`chunk_snapshots`), and every such
snapshot's levels strictly increase from outermost to innermost; and
`"# A\n## B\n# C"` yields header paths `["A"], ["A","B"], ["C"]`. -/
theorem C4_hierarchy :
    (∀ (stack : List HeaderFrame) (lvl : Nat),
      List.Chain' (fun a b => a.level < b.level) stack →
      ∀ f ∈ popGE stack lvl, f.level < lvl) ∧
    (∀ md : List Char,
      (chunk_by_headers none md).map MarkdownChunk.header_path =
        (chunk_snapshots md).map
          (fun fs => if fs = [] then [docRoot] else fs.map HeaderFrame.title) ∧
      ∀ fs ∈ chunk_snapshots md,
        List.Chain' (fun a b => a.level < b.level) fs) ∧
    (chunk_by_headers none ("# A\n## B\n# C".toList)).map MarkdownChunk.header_path =
      [[['A']], [['A'], ['B']], [['C']]] := by
  refine ⟨popGE_level_lt, ?_, by decide⟩
  intro md
  rw [chunk_by_headers_none_eq]
  exact raw_snapshots md

/-- C4, witness: popping at level 2 on the stack `[(1,"A"),(2,"B")]`
leaves only frames of level < 2; the chunk of `"# A"` carries exactly
the title projection of its computed snapshot, and that snapshot
(`[(1,"A")]`, as `chunk_snapshots` evaluates) is strictly increasing. -/
theorem C4_hierarchy_witness :
    (∀ f ∈ popGE [⟨1, ['A']⟩, ⟨2, ['B']⟩] 2, f.level < 2) ∧
    ((chunk_by_headers none ("# A".toList)).map MarkdownChunk.header_path =
      (chunk_snapshots ("# A".toList)).map
        (fun fs => if fs = [] then [docRoot] else fs.map HeaderFrame.title)) ∧
    List.Chain' (fun a b => a.level < b.level) [(⟨1, ['A']⟩ : HeaderFrame)] :=
  ⟨C4_hierarchy.1 [⟨1, ['A']⟩, ⟨2, ['B']⟩] 2
      (List.chain'_cons.2 ⟨by decide, List.chain'_singleton _⟩),
   (C4_hierarchy.2.1 ("# A".toList)).1,
   (C4_hierarchy.2.1 ("# A".toList)).2 [⟨1, ['A']⟩] (by decide)⟩

/-- C5, counterexample: a title containing the delimiter — from the
document `"# a > b"` — joins to `"a > b"`, which splits back into
`["a", "b"]`, not the original `header_path` `["a > b"]`. -/
theorem C5_counterexample :
    ((chunk_by_headers none ("# a > b".toList)).headD dummyChunk).header_path =
      ["a > b".toList] ∧
    pySplit gtSep
        (to_dict ((chunk_by_headers none ("# a > b".toList)).headD dummyChunk)).header_path =
      ["a".toList, "b".toList] ∧
    ["a".toList, "b".toList] ≠ ["a > b".toList] := by decide

/-- C5, amended: splitting the `" > "`-joined header string reconstructs
`header_path` exactly, provided the path is non-empty, no title except
possibly the last creates an occurrence of `" > "` inside itself or
against the following delimiter, and the last title contains no
occurrence of `" > "`. -/
theorem C5_roundtrip_amended (c : MarkdownChunk)
    (hne : c.header_path ≠ [])
    (hmid : ∀ t ∈ c.header_path.dropLast, noMidOcc gtSep t)
    (hlast : sepFree gtSep (c.header_path.getLastD [])) :
    pySplit gtSep (to_dict c).header_path = c.header_path := by
  show pySplit gtSep (pyJoin gtSep c.header_path) = c.header_path
  refine pySplit_pyJoin gtSep (by simp [gtSep]) c.header_path hne hmid ?_
  intro t ht
  rw [← getLastD_eq_of_getLast? c.header_path t ht]
  exact hlast

/-- C5, witness: the round trip holds for the path `["A", "B"]`. -/
theorem C5_roundtrip_witness :
    pySplit gtSep
        (to_dict
          { content := [], header_path := [['A'], ['B']], level := 0,
            start_line := 0, end_line := 0 }).header_path =
      [['A'], ['B']] :=
  C5_roundtrip_amended
    { content := [], header_path := [['A'], ['B']], level := 0,
      start_line := 0, end_line := 0 }
    (by decide) (by decide) (by decide)

/-- C6: the Subdivider loses no content — joining the sub-chunks of an
oversized chunk with `"\n\n"` restores the original content exactly, and
a chunk that is a single over-budget paragraph is preserved whole as one
sub-chunk. -/
theorem C6_no_content_loss (N : Nat) (c : MarkdownChunk)
    (_h : N < c.content.length) :
    pyJoin nnSep ((subdivide_chunk N c).map MarkdownChunk.content) = c.content ∧
    ((pySplit nnSep c.content).length = 1 →
      (subdivide_chunk N c).map MarkdownChunk.content = [c.content]) := by
  have hnn : nnSep ≠ [] := by simp [nnSep]
  rw [subdivide_chunk_eq]
  rcases hq : pySplit nnSep c.content with _ | ⟨q, qs⟩
  · exact absurd hq (pySplit_ne_nil nnSep c.content)
  rw [subRun_cons_else N c q qs [] c.start_line (by simp)]
  simp only [List.nil_append]
  constructor
  · rw [subRun_join N c qs [q] c.start_line (by simp)]
    have h1 : ([q] ++ qs : List (List Char)) = q :: qs := rfl
    rw [h1, ← hq]
    exact pyJoin_pySplit_eq nnSep hnn c.content
  · intro hlen
    have hqs : qs = [] := by
      simp only [List.length_cons] at hlen
      exact List.eq_nil_of_length_eq_zero (by omega)
    subst hqs
    rw [subRun_nil, if_pos (by simp)]
    simp only [List.map_cons, List.map_nil]
    have hj := pyJoin_pySplit_eq nnSep hnn c.content
    rw [hq] at hj
    rw [hj]

/-- C6, witness: a single paragraph `"abc"` wider than budget 1 is kept
whole and content is preserved. -/
theorem C6_no_content_loss_witness :
    pyJoin nnSep
        ((subdivide_chunk 1
          { content := "abc".toList, header_path := [docRoot], level := 0,
            start_line := 0, end_line := 0 }).map MarkdownChunk.content) =
      "abc".toList ∧
    (subdivide_chunk 1
        { content := "abc".toList, header_path := [docRoot], level := 0,
          start_line := 0, end_line := 0 }).map MarkdownChunk.content =
      ["abc".toList] := by
  have h := C6_no_content_loss 1
    { content := "abc".toList, header_path := [docRoot], level := 0,
      start_line := 0, end_line := 0 } (by decide)
  exact ⟨h.1, h.2 (by decide)⟩

/-- C7, counterexample: with budget 4 and document `"ab\n\ncd\n\nef"`,
the first sub-chunk closes with `k = 2` accumulated paragraphs, yet the
next sub-chunk's `start_line` is 1, not `0 + 2`: the source reassigns
`sub_content = [para]` before `sub_start += len(sub_content)`, so the
counter advances by 1, not by `k`. -/
theorem C7_counterexample :
    chunk_by_headers (some 4) ("ab\n\ncd\n\nef".toList) =
      [{ content := "ab\n\ncd".toList, header_path := [docRoot], level := 0,
         start_line := 0, end_line := 1 },
       { content := "ef".toList, header_path := [docRoot], level := 0,
         start_line := 1, end_line := 4 }] ∧
    pySplit nnSep ("ab\n\ncd".toList) = ["ab".toList, "cd".toList] := by decide

/-- C7, amended: each close advances the line counter by exactly 1 (the
length of the freshly reassigned one-element accumulator), regardless of
how many paragraphs the closed sub-chunk holds and of newline counts:
consecutive sub-chunk `start_line`s increase by 1, starting at the
parent's `start_line`, and the final sub-chunk keeps the parent's
`end_line`. -/
theorem C7_line_counter_amended (N : Nat) (c : MarkdownChunk) :
    subdivide_chunk N c ≠ [] ∧
    ((subdivide_chunk N c).headD dummyChunk).start_line = c.start_line ∧
    List.Chain' (fun a b => b.start_line = a.start_line + 1)
      (subdivide_chunk N c) ∧
    ((subdivide_chunk N c).getLastD dummyChunk).end_line = c.end_line := by
  rw [subdivide_chunk_eq]
  rcases hq : pySplit nnSep c.content with _ | ⟨q, qs⟩
  · exact absurd hq (pySplit_ne_nil nnSep c.content)
  rw [subRun_cons_else N c q qs [] c.start_line (by simp)]
  simp only [List.nil_append]
  have h1 := subRun_ne_nil N c qs [q] c.start_line (by simp)
  obtain ⟨hh, hch, hla⟩ := subRun_starts N c qs [q] c.start_line (by simp)
  obtain ⟨x, hx⟩ := getLast?_exists_chunks _ h1
  refine ⟨h1, hh, hch, ?_⟩
  rw [getLastD_eq_chunks _ x hx]
  exact hla x hx

/-- C8: every sub-chunk produced from a parent inherits the parent's
`header_path` and `level` unchanged. -/
theorem C8_frame_inheritance (N : Nat) (p c : MarkdownChunk)
    (h : c ∈ subdivide_chunk N p) :
    c.header_path = p.header_path ∧ c.level = p.level := by
  rw [subdivide_chunk_eq] at h
  exact subRun_frame N p _ [] p.start_line c h

/-- C8, witness: the first sub-chunk of `"a\n\nb"` under budget 1 keeps
path `["T"]` and level 2. -/
theorem C8_frame_inheritance_witness :
    ({ content := "a".toList, header_path := [['T']], level := 2,
       start_line := 0, end_line := 0 } : MarkdownChunk).header_path =
      ({ content := "a\n\nb".toList, header_path := [['T']], level := 2,
         start_line := 0, end_line := 2 } : MarkdownChunk).header_path ∧
    ({ content := "a".toList, header_path := [['T']], level := 2,
       start_line := 0, end_line := 0 } : MarkdownChunk).level =
      ({ content := "a\n\nb".toList, header_path := [['T']], level := 2,
         start_line := 0, end_line := 2 } : MarkdownChunk).level :=
  C8_frame_inheritance 1
    { content := "a\n\nb".toList, header_path := [['T']], level := 2,
      start_line := 0, end_line := 2 }
    { content := "a".toList, header_path := [['T']], level := 2,
      start_line := 0, end_line := 0 } (by decide)

/-- C9: a document with no header line yields exactly one chunk, with
level 0, path `["Document Root"]`, content equal to the stripped input,
covering all lines. -/
theorem C9_no_headers (md : List Char)
    (h : ∀ line ∈ pySplit nlSep md, headerMatch line = none) :
    chunk_by_headers none md =
      [{ content := pyStrip md, header_path := [docRoot], level := 0,
         start_line := 0, end_line := ((pySplit nlSep md).length : Int) - 1 }] := by
  have hnl : nlSep ≠ [] := by simp [nlSep]
  rw [chunk_by_headers_none_eq, chunk_by_headers_raw]
  rw [scanLines_no_headers (pySplit nlSep md) 0 initState h]
  have hne := pySplit_ne_nil nlSep md
  simp only [initState, List.nil_append]
  rw [if_pos (by simpa using hne)]
  have hcreate : create_chunk (pySplit nlSep md) [] 0 0
      (((pySplit nlSep md).length : Int) - 1) threshold_title =
      { content := pyStrip md, header_path := [docRoot], level := 0,
        start_line := 0, end_line := ((pySplit nlSep md).length : Int) - 1 } := by
    rw [create_chunk]
    simp only [List.map_nil]
    rw [if_pos trivial]
    rw [pyJoin_pySplit_eq nlSep hnl md]
  rw [hcreate]

/-- C9, witness: `"hello\nworld"` yields the single Document Root
chunk. -/
theorem C9_no_headers_witness :
    chunk_by_headers none ("hello\nworld".toList) =
      [{ content := "hello\nworld".toList, header_path := [docRoot], level := 0,
         start_line := 0, end_line := 1 }] := by
  rw [C9_no_headers ("hello\nworld".toList) (by decide)]
  decide

/-- C10: constructing the chunker with `max_chunk_size = 0` disables the
subdivision pass entirely — `0` is falsy in the `if self.max_chunk_size:`
guard, so the output is the raw unsubdivided chunk list, exactly as with
no configured limit. -/
theorem C10_zero_budget (md : List Char) :
    chunk_by_headers (some 0) md = chunk_by_headers none md ∧
    chunk_by_headers (some 0) md = chunk_by_headers_raw md :=
  ⟨rfl, rfl⟩

end Chunkerer
